import Mathlib

/-!
# Verification of the `bandstats` effective-mass / band-edge extraction

Shallow embedding of `vaspy/cli/bandstats.py`:

* the Edge Finder (`get_band_edges`) is embedded over `ℚ` (Python floats are
  modelled by exact rationals), so that every predicate is decidable;
* the Window Builder (`get_data`) and Curvature Fitter (`calc_em`) are embedded
  over `ℝ` because they use `sqrt` (vector norms) and division.

Python's `float("inf")` / `float("-inf")` seed values are modelled with
`Option`: `none` stands for the infinite seed, which every finite update
replaces (exactly the behaviour of the strict comparisons used in the source).
Logging calls are I/O and are not part of the embedding; the quantities the
source only logs (indirect and direct gap) are returned as part of the result,
since they are the observable output of the component.
-/

/-! ## Scalar and vector types -/

abbrev Vec3Q := ℚ × ℚ × ℚ

abbrev Vec3R := ℝ × ℝ × ℝ

abbrev Mat3 := Vec3R × Vec3R × Vec3R

def q0 : Vec3Q := (0, 0, 0)

def v0R : Vec3R := (0, 0, 0)

/-! ## Edge Finder (`get_band_edges`, bandstats.py lines 123-185)

The nominal VBM/CBM dictionaries (`n_vbm`, `n_cbm`) are consumed only by the
advisory `logging.info` cross-check on lines 133-142, which does not affect
any returned or reported value; they are therefore not part of the embedding.
-/

/-- One entry of the `vbms` / `cbms` / `bg_direct` lists: a Python dict
`{'num': k_num, 'loc': kpoint, 'e': energy}` (1-based k-index). -/
structure EdgePointQ where
  num : ℕ
  loc : Vec3Q
  e : ℚ
deriving DecidableEq

/-- Failure modes of the embedded Edge Finder.  `indexError` models the
uncaught Python `IndexError` raised by `cbms[0]` / `vbms[0]` on line 178 when
either list is empty.  `invalidInput` is modelled from the spec: the spec's
`InvalidInput` error kind (§7); the source defines no such kind and never
produces it. -/
inductive EdgeError where
  | indexError
  | invalidInput
deriving DecidableEq

/-- Lines 127-129: running maximum of the valence energies over
`zip(vb, cb)`, seeded with `float("-inf")` (modelled by `none`: the strict
`v_e > -inf` comparison succeeds for every finite `v_e`). -/
def vbmE : Option ℚ → List (ℚ × ℚ) → Option ℚ
  | acc, [] => acc
  | none, p :: rest => vbmE (some p.1) rest
  | some m, p :: rest => vbmE (some (if p.1 > m then p.1 else m)) rest

/-- Lines 127, 130-131: running minimum of the conduction energies,
seeded with `float("inf")` (modelled by `none`). -/
def cbmE : Option ℚ → List (ℚ × ℚ) → Option ℚ
  | acc, [] => acc
  | none, p :: rest => cbmE (some p.2) rest
  | some m, p :: rest => cbmE (some (if p.2 < m then p.2 else m)) rest

/-- The tolerance test `abs(e - edge_energy) < tol` of lines 151/153.  When the
edge energy is still the infinite seed (`none`, only possible on an empty
band) the absolute difference is infinite and the test is false. -/
def nearEdge (tol : ℚ) (eOpt : Option ℚ) (e : ℚ) : Bool :=
  match eOpt with
  | none => false
  | some m => decide (|e - m| < tol)

/-- `zip` of three lists, as used by `zip(kpoints, vb, cb)` on line 150. -/
def zip3 {α β γ : Type} : List α → List β → List γ → List (α × β × γ)
  | a :: as, b :: bs, c :: cs => (a, b, c) :: zip3 as bs cs
  | _, _, _ => []

/-- Lines 150-154: collect the k-points whose energy is within `tol` of the
band edge, or whose 1-based index `k0` is in the forced list; `k0` plays the
role of the `k_num` counter. -/
def collectEdges (forced : List ℕ) (tol : ℚ) (eOpt : Option ℚ) :
    List (Vec3Q × ℚ) → ℕ → List EdgePointQ
  | [], _ => []
  | (kpt, e) :: rest, k0 =>
    if k0 ∈ forced ∨ nearEdge tol eOpt e = true then
      ⟨k0, kpt, e⟩ :: collectEdges forced tol eOpt rest (k0 + 1)
    else
      collectEdges forced tol eOpt rest (k0 + 1)

/-- Lines 160-164: one step of the direct-gap clustering.  The current
cluster `cur = []` models the seed `[{'e': float("inf")}]`: for the seed the
comparison `inf - bg > tol` holds for every finite `bg` and `tol`, so the
seed is replaced; a nonempty cluster compares against the gap of its first
element. -/
def bgStep (tol : ℚ) (cur : List EdgePointQ) (num : ℕ) (kpt : Vec3Q) (bg : ℚ) :
    List EdgePointQ :=
  match cur with
  | [] => [⟨num, kpt, bg⟩]
  | p :: _ =>
    if p.e - bg > tol then [⟨num, kpt, bg⟩]
    else if |p.e - bg| < tol then cur ++ [⟨num, kpt, bg⟩]
    else cur

/-- The direct-gap clustering loop over `zip(kpoints, vb, cb)` with the
`k_num` counter; the gap at each point is `c_e - v_e` (line 160). -/
def bgFold (tol : ℚ) (cur : List EdgePointQ) :
    List (Vec3Q × ℚ × ℚ) → ℕ → List EdgePointQ
  | [], _ => cur
  | (kpt, ve, ce) :: rest, k0 => bgFold tol (bgStep tol cur k0 kpt (ce - ve)) rest (k0 + 1)

/-- The `vbms` list built by `get_band_edges`. -/
def vbmsOf (kpoints : List Vec3Q) (vb cb : List ℚ) (tol : ℚ) (vkpts : List ℕ) :
    List EdgePointQ :=
  collectEdges vkpts tol (vbmE none (vb.zip cb))
    ((zip3 kpoints vb cb).map fun r => (r.1, r.2.1)) 1

/-- The `cbms` list built by `get_band_edges`. -/
def cbmsOf (kpoints : List Vec3Q) (vb cb : List ℚ) (tol : ℚ) (ckpts : List ℕ) :
    List EdgePointQ :=
  collectEdges ckpts tol (cbmE none (vb.zip cb))
    ((zip3 kpoints vb cb).map fun r => (r.1, r.2.2)) 1

/-- The final `bg_direct` cluster built by `get_band_edges`. -/
def bgDirectOf (kpoints : List Vec3Q) (vb cb : List ℚ) (tol : ℚ) : List EdgePointQ :=
  bgFold tol [] (zip3 kpoints vb cb) 1

/-- The observable result of `get_band_edges`: the returned `vbms, cbms`
(line 185) together with the reported indirect gap (line 178) and direct-gap
cluster (lines 180-184). -/
structure EdgeReport where
  vbms : List EdgePointQ
  cbms : List EdgePointQ
  bgIndirect : ℚ
  bgDirect : List EdgePointQ
deriving DecidableEq

/-- `get_band_edges` (lines 123-185).  The indirect gap
`cbms[0]['e'] - vbms[0]['e']` raises `IndexError` when either list is empty,
which is the only failure path of the function. -/
def get_band_edges (kpoints : List Vec3Q) (vb cb : List ℚ) (tol : ℚ)
    (vkpts ckpts : List ℕ) : Except EdgeError EdgeReport :=
  match cbmsOf kpoints vb cb tol ckpts, vbmsOf kpoints vb cb tol vkpts with
  | cfst :: crest, vfst :: vrest =>
    .ok ⟨vfst :: vrest, cfst :: crest, cfst.e - vfst.e, bgDirectOf kpoints vb cb tol⟩
  | _, _ => .error .indexError

/-! ## Window Builder (`get_data`, bandstats.py lines 74-120) -/

/-- Euclidean norm of a 3-vector, `numpy.linalg.norm`. -/
noncomputable def nrm (u : Vec3R) : ℝ :=
  Real.sqrt (u.1 ^ 2 + u.2.1 ^ 2 + u.2.2 ^ 2)

/-- `direction /= norm(direction)` (line 84).  Division by a zero norm is
total in this exact model (yielding `0`; IEEE arithmetic yields `nan`),
mirroring the fact that the source raises nothing here. -/
noncomputable def unitDir (u : Vec3R) : Vec3R :=
  (u.1 / nrm u, u.2.1 / nrm u, u.2.2 / nrm u)

/-- Componentwise difference `kpoints[start] - kpoints[end]` (line 83). -/
noncomputable def vsubR (a b : Vec3R) : Vec3R :=
  (a.1 - b.1, a.2.1 - b.2.1, a.2.2 - b.2.2)

/-- The elementwise reflection `2 * centre - k` of lines 104/111. -/
noncomputable def mirrorK (c k : Vec3R) : Vec3R :=
  (2 * c.1 - k.1, 2 * c.2.1 - k.2.1, 2 * c.2.2 - k.2.2)

/-- Python slice `l[a : b + 1]` for `0 ≤ a ≤ b` (lines 86-87). -/
def seg {α : Type} (l : List α) (a b : ℕ) : List α :=
  (l.drop a).take (b - a + 1)

/-- The dict appended on lines 117-119.  `start`/`endIdx` hold the *raw*
`start_tmp = p` and `end_tmp = p + x` (not the normalised `min`/`max` used
for slicing); `endIdx` is the Python key `'end'`. -/
structure WindowData where
  start : ℤ
  endIdx : ℤ
  vals : List ℝ
  label : String
  dir : Vec3R
  kpoints : List Vec3R
deriving Inhabited

/-- The body of the inner loop of `get_data` for one signed offset `x`
(lines 78-119): returns `none` when the boundary guard
`start_tmp + x > 0 and start_tmp + x < len(band)` (line 79) rejects the
offset, otherwise the window dict.  `p` is the 0-based extremum index
`edge['num'] - 1`. -/
noncomputable def windowOpt (kpoints : List Vec3R) (band : List ℝ) (steps : ℕ)
    (p : ℕ) (x : ℤ) : Option WindowData :=
  if 0 < (p : ℤ) + x ∧ (p : ℤ) + x < (band.length : ℤ) then
    let endT : ℕ := ((p : ℤ) + x).toNat
    let s : ℕ := min p endT
    let t : ℕ := max p endT
    let direction : Vec3R := unitDir (vsubR (kpoints.getD s v0R) (kpoints.getD t v0R))
    let valsTmp : List ℝ := seg band s t
    let kptsTmp : List Vec3R := seg kpoints s t
    let valsRev : List ℝ := valsTmp.reverse
    if x < 0 then
      some ⟨(p : ℤ), (p : ℤ) + x, valsTmp ++ valsRev.tail, "", direction,
        kptsTmp ++ ((kptsTmp.map (mirrorK (kptsTmp.getD steps v0R))).reverse).tail⟩
    else
      some ⟨(p : ℤ), (p : ℤ) + x, valsRev ++ valsTmp.tail, "", direction,
        ((kptsTmp.map (mirrorK (kptsTmp.getD 0 v0R))).reverse) ++ kptsTmp.tail⟩
  else
    none

/-- A band-edge point as consumed by `get_data` (only its `'num'` field is
read, on line 78). -/
structure EdgePointR where
  num : ℕ
  loc : Vec3R
  e : ℝ

/-- `get_data` (lines 74-120): for each edge, try the signed offsets
`[-steps, steps]` in that order.  The `band_labels` argument of the source is
never read (the label is always `""`, line 116) and is omitted. -/
noncomputable def get_data (kpoints : List Vec3R) (band : List ℝ)
    (band_edges : List EdgePointR) (steps : ℕ) : List WindowData :=
  band_edges.flatMap fun edge =>
    [-(steps : ℤ), (steps : ℤ)].filterMap (windowOpt kpoints band steps (edge.num - 1))

/-! ## Curvature Fitter (`calc_em`, bandstats.py lines 60-71)

`numpy.polyfit(x, y, 2)` is external library code; it is modelled by the
degree-2 least-squares coefficients obtained from Cramer's rule on the normal
equations (the theorem for C5 proves that this model does minimise the
residual sum of squares whenever the fit is nonsingular). -/

/-- Power sum `Σ xⱼᵏ` over the fitted samples. -/
noncomputable def Spow (pts : List (ℝ × ℝ)) (k : ℕ) : ℝ :=
  (pts.map fun q => q.1 ^ k).sum

/-- Moment sum `Σ xⱼᵏ yⱼ` over the fitted samples. -/
noncomputable def Tmom (pts : List (ℝ × ℝ)) (k : ℕ) : ℝ :=
  (pts.map fun q => q.1 ^ k * q.2).sum

/-- `Σ yⱼ²` over the fitted samples. -/
noncomputable def Ysq (pts : List (ℝ × ℝ)) : ℝ :=
  (pts.map fun q => q.2 ^ 2).sum

/-- Determinant of the normal-equation (Gram) matrix
`[[S4, S3, S2], [S3, S2, S1], [S2, S1, S0]]`. -/
noncomputable def detA (pts : List (ℝ × ℝ)) : ℝ :=
  Spow pts 4 * (Spow pts 2 * Spow pts 0 - Spow pts 1 * Spow pts 1)
    - Spow pts 3 * (Spow pts 3 * Spow pts 0 - Spow pts 1 * Spow pts 2)
    + Spow pts 2 * (Spow pts 3 * Spow pts 1 - Spow pts 2 * Spow pts 2)

/-- Cramer numerator for the quadratic coefficient (first column replaced by
the moment vector `[T2, T1, T0]`). -/
noncomputable def detN1 (pts : List (ℝ × ℝ)) : ℝ :=
  Tmom pts 2 * (Spow pts 2 * Spow pts 0 - Spow pts 1 * Spow pts 1)
    - Spow pts 3 * (Tmom pts 1 * Spow pts 0 - Tmom pts 0 * Spow pts 1)
    + Spow pts 2 * (Tmom pts 1 * Spow pts 1 - Tmom pts 0 * Spow pts 2)

/-- Cramer numerator for the linear coefficient. -/
noncomputable def detN2 (pts : List (ℝ × ℝ)) : ℝ :=
  Spow pts 4 * (Tmom pts 1 * Spow pts 0 - Spow pts 1 * Tmom pts 0)
    - Tmom pts 2 * (Spow pts 3 * Spow pts 0 - Spow pts 1 * Spow pts 2)
    + Spow pts 2 * (Spow pts 3 * Tmom pts 0 - Tmom pts 1 * Spow pts 2)

/-- Cramer numerator for the constant coefficient. -/
noncomputable def detN3 (pts : List (ℝ × ℝ)) : ℝ :=
  Spow pts 4 * (Spow pts 2 * Tmom pts 0 - Tmom pts 1 * Spow pts 1)
    - Spow pts 3 * (Spow pts 3 * Tmom pts 0 - Tmom pts 1 * Spow pts 2)
    + Tmom pts 2 * (Spow pts 3 * Spow pts 1 - Spow pts 2 * Spow pts 2)

/-- Quadratic coefficient `pfit[0]` of `numpy.polyfit(x, y, 2)`. -/
noncomputable def polyfit2a (pts : List (ℝ × ℝ)) : ℝ := detN1 pts / detA pts

/-- Linear coefficient `pfit[1]` of `numpy.polyfit(x, y, 2)`. -/
noncomputable def polyfit2b (pts : List (ℝ × ℝ)) : ℝ := detN2 pts / detA pts

/-- Constant coefficient `pfit[2]` of `numpy.polyfit(x, y, 2)`. -/
noncomputable def polyfit2c (pts : List (ℝ × ℝ)) : ℝ := detN3 pts / detA pts

/-- Residual sum of squares of the quadratic `a x² + b x + c` on the
samples. -/
noncomputable def rss (a b c : ℝ) (pts : List (ℝ × ℝ)) : ℝ :=
  (pts.map fun q => (a * q.1 ^ 2 + b * q.1 + c - q.2) ^ 2).sum

/-- Sum of squares of a quadratic evaluated at the sample abscissas (the
homogeneous part of a residual difference). -/
noncomputable def qss (u v w : ℝ) (pts : List (ℝ × ℝ)) : ℝ :=
  (pts.map fun q => (u * q.1 ^ 2 + v * q.1 + w) ^ 2).sum

/-- Line 63: per-row Euclidean magnitudes of the reciprocal basis,
`sqrt(np.sum(recip_lattice ** 2, axis=1))`. -/
noncomputable def lengthsOf (B : Mat3) : Vec3R :=
  (nrm B.1, nrm B.2.1, nrm B.2.2)

/-- Line 64: the scalar projection
`dot(dir, dot(diag(lengths), k))` of one k-point. -/
noncomputable def projX (dir l k : Vec3R) : ℝ :=
  dir.1 * (l.1 * k.1) + dir.2.1 * (l.2.1 * k.2.1) + dir.2.2 * (l.2.2 * k.2.2)

/-- `calc_em` (lines 60-71): project the window's k-points, fit a degree-2
polynomial, and convert the doubled quadratic coefficient with the
`7.61996348863` constant. -/
noncomputable def calc_em (data : WindowData) (recip_lattice : Mat3) : ℝ :=
  let l := lengthsOf recip_lattice
  let x := data.kpoints.map (projX data.dir l)
  let pfit0 := polyfit2a (x.zip data.vals)
  let co := pfit0 * 2
  7.61996348863 / co

/-- Componentwise negation of a 3-vector (`direction → -direction`). -/
noncomputable def vnegR (u : Vec3R) : Vec3R :=
  (-u.1, -u.2.1, -u.2.2)

/-- The claim-side description of `vbm_points`/`cbm_points`: the 1-based
k-indices `j + 1` (ascending) whose index is forced or whose energy is within
`tol` of the band-edge energy `M`, paired with their k-point and energy. -/
def edgeSpec (kpoints : List Vec3Q) (band : List ℚ) (tol M : ℚ)
    (forced : List ℕ) : List EdgePointQ :=
  (List.range band.length).filterMap fun j =>
    if (j + 1) ∈ forced ∨ |band.getD j 0 - M| < tol then
      some ⟨j + 1, kpoints.getD j q0, band.getD j 0⟩
    else none

/-! ## Concrete inputs used to instantiate the theorems -/

/-- A three-point k-path along the first reciprocal axis. -/
noncomputable def kptsW : List Vec3R := [(0, 0, 0), (1, 0, 0), (2, 0, 0)]

/-- Band energies on `kptsW`, with the extremum at the middle point. -/
noncomputable def bandW : List ℝ := [4, 1, 2]

/-- A k-path that revisits its first point, so that the two k-points
bounding a 2-step window coincide. -/
noncomputable def kptsD : List Vec3R := [(0, 0, 0), (1, 0, 0), (0, 0, 0)]

/-- The forward 1-step window around index 1 of `kptsW`/`bandW`. -/
noncomputable def wA : WindowData := (windowOpt kptsW bandW 1 1 1).getD default

/-- The backward 1-step window around index 2 of `kptsW`/`bandW`. -/
noncomputable def wB : WindowData := (windowOpt kptsW bandW 1 2 (-1)).getD default

/-- The forward 2-step window of `kptsD`, whose bounding k-points coincide. -/
noncomputable def wC : WindowData := (windowOpt kptsD bandW 2 0 2).getD default

/-- A concrete window for the Curvature Fitter: k-points along the first
axis with parabolic energies. -/
noncomputable def dataC5 : WindowData :=
  ⟨0, 2, [0, 1, 4], "", (1, 0, 0), [(0, 0, 0), (1, 0, 0), (2, 0, 0)]⟩

/-- The identity reciprocal basis. -/
noncomputable def idB : Mat3 := ((1, 0, 0), (0, 1, 0), (0, 0, 1))

/-! ## Theorems -/

/-- **C1 counterexample.**  For the extremum at 1-based index 2 (`p = 1`) of a
3-point path with `steps = 1`, the signed offset `x = -1` satisfies
`0 ≤ p + x < N`, yet the Window Builder produces no window for it: the
boundary guard on line 79 is `start_tmp + x > 0`, strict, so `p + x = 0` is
rejected. -/
theorem C1_counterexample :
    (0 : ℤ) ≤ (1 : ℤ) + (-1) ∧ (1 : ℤ) + (-1) < (bandW.length : ℤ) ∧
      windowOpt kptsW bandW 1 1 (-1) = none := by
  refine ⟨by decide, by norm_num [bandW], ?_⟩
  rfl

/-- **C1 (amended).**  For every path, extremum index `p`, step count and
signed offset `x`, the Window Builder builds a window exactly when
`0 < p + x < N` (strict at the lower bound); an offset outside that range
produces no window for that sign and raises no error. -/
theorem C1_window_build_guard (kpoints : List Vec3R) (band : List ℝ)
    (steps p : ℕ) (x : ℤ) :
    (windowOpt kpoints band steps p x).isSome = true ↔
      0 < (p : ℤ) + x ∧ (p : ℤ) + x < (band.length : ℤ) := by
  unfold windowOpt
  by_cases h : 0 < (p : ℤ) + x ∧ (p : ℤ) + x < (band.length : ℤ)
  · simp only [if_pos h]
    by_cases hx : x < 0 <;> simp [hx, h]
  · simp [if_neg h, h]

/-- **C10 counterexample.**  The backward window around 0-based index 2 with
one step stores the raw indices `start = 2`, `end = 1`: `start < end` fails.
(The dict on lines 117-119 stores `start_tmp`/`end_tmp`, not the normalised
`min`/`max` used for slicing.) -/
theorem C10_counterexample :
    windowOpt kptsW bandW 1 2 (-1) = some wB ∧ ¬ wB.start < wB.endIdx := by
  constructor
  · rfl
  · decide

/-- **C10 (amended).**  Every window stores the raw indices `start = p`,
`end = p + x`; hence `start < end` for the forward offset (`x > 0`) and
`start > end` for the backward offset (`x < 0`). -/
theorem C10_window_indices (kpoints : List Vec3R) (band : List ℝ)
    (steps p : ℕ) (x : ℤ) (w : WindowData)
    (hw : windowOpt kpoints band steps p x = some w) :
    w.start = p ∧ w.endIdx = (p : ℤ) + x ∧
      (0 < x → w.start < w.endIdx) ∧ (x < 0 → w.endIdx < w.start) := by
  unfold windowOpt at hw
  by_cases h : 0 < (p : ℤ) + x ∧ (p : ℤ) + x < (band.length : ℤ)
  · rw [if_pos h] at hw
    by_cases hx : x < 0
    · rw [if_pos hx] at hw
      cases hw
      refine ⟨rfl, rfl, ?_, ?_⟩ <;> intro h' <;> dsimp only <;> omega
    · rw [if_neg hx] at hw
      cases hw
      refine ⟨rfl, rfl, ?_, ?_⟩ <;> intro h' <;> dsimp only <;> omega
  · rw [if_neg h] at hw
    cases hw

/-- **C10 witness.**  The concrete backward window `wB` instantiates the
amended statement: its raw `end` index is below its raw `start` index. -/
theorem C10_witness : wB.endIdx < wB.start :=
  (C10_window_indices kptsW bandW 1 2 (-1) wB (by rfl)).2.2.2 (by decide)

/-- The length of the inclusive slice `l[a : b + 1]`. -/
theorem seg_length {α : Type} (l : List α) (a b : ℕ) (hb : b < l.length)
    (hab : a ≤ b) : (seg l a b).length = b - a + 1 := by
  simp only [seg, List.length_take, List.length_drop]
  omega

/-- **C2.**  Contents and length of a successfully built window: writing
`vals_slice`/`kpts_slice` for the inclusive slices from `min p (p+x)` to
`max p (p+x)`, a backward window (`x < 0`) is
`vals_slice ++ reverse(vals_slice)[1:]` with k-points mirrored about
`kpts_slice[steps]`, a forward window (`x > 0`) is
`reverse(vals_slice) ++ vals_slice[1:]` with k-points mirrored about
`kpts_slice[0]`, and both output sequences have odd length `2*steps + 1`. -/
theorem C2_window_contents (kpoints : List Vec3R) (band : List ℝ)
    (steps p : ℕ) (x : ℤ) (w : WindowData) (s t : ℕ)
    (hsteps : 1 ≤ steps) (hx : x = -(steps : ℤ) ∨ x = (steps : ℤ))
    (hp : p < band.length) (hlen : kpoints.length = band.length)
    (hs : s = min p ((p : ℤ) + x).toNat) (ht : t = max p ((p : ℤ) + x).toNat)
    (hw : windowOpt kpoints band steps p x = some w) :
    (x < 0 → w.vals = seg band s t ++ (seg band s t).reverse.tail ∧
      w.kpoints = seg kpoints s t ++
        ((seg kpoints s t).map (mirrorK ((seg kpoints s t).getD steps v0R))).reverse.tail) ∧
    (0 < x → w.vals = (seg band s t).reverse ++ (seg band s t).tail ∧
      w.kpoints = ((seg kpoints s t).map (mirrorK ((seg kpoints s t).getD 0 v0R))).reverse ++
        (seg kpoints s t).tail) ∧
    w.vals.length = 2 * steps + 1 ∧ w.kpoints.length = 2 * steps + 1 := by
  unfold windowOpt at hw
  by_cases h : 0 < (p : ℤ) + x ∧ (p : ℤ) + x < (band.length : ℤ)
  · rw [if_pos h] at hw
    subst hs ht
    have hsegv : (seg band (min p ((p : ℤ) + x).toNat) (max p ((p : ℤ) + x).toNat)).length
        = steps + 1 := by
      rw [seg_length] <;> omega
    have hsegk : (seg kpoints (min p ((p : ℤ) + x).toNat) (max p ((p : ℤ) + x).toNat)).length
        = steps + 1 := by
      rw [seg_length] <;> omega
    by_cases hneg : x < 0
    · rw [if_pos hneg] at hw
      cases hw
      refine ⟨fun _ => ⟨rfl, rfl⟩, fun hpos => absurd hpos (by omega), ?_, ?_⟩ <;>
        dsimp only <;>
        simp only [List.length_append, List.length_tail, List.length_reverse,
          List.length_map, hsegv, hsegk] <;>
        omega
    · rw [if_neg hneg] at hw
      cases hw
      refine ⟨fun hneg' => absurd hneg' hneg, fun _ => ⟨rfl, rfl⟩, ?_, ?_⟩ <;>
        dsimp only <;>
        simp only [List.length_append, List.length_tail, List.length_reverse,
          List.length_map, hsegv, hsegk] <;>
        omega
  · rw [if_neg h] at hw
    cases hw

/-- **C2 witness.**  The forward 1-step window `wA` of the concrete path has
3 energies and 3 k-points. -/
theorem C2_witness : wA.vals.length = 2 * 1 + 1 ∧ wA.kpoints.length = 2 * 1 + 1 :=
  have h := C2_window_contents kptsW bandW 1 1 1 wA
    (min 1 ((1 : ℤ) + 1).toNat) (max 1 ((1 : ℤ) + 1).toNat)
    (le_refl 1) (Or.inr rfl) (by decide) (by rfl) rfl rfl (by rfl)
  ⟨h.2.2.1, h.2.2.2⟩

/-- A nonzero 3-vector has positive squared norm. -/
theorem sumsq_pos (u : Vec3R) (h : u ≠ v0R) :
    0 < u.1 ^ 2 + u.2.1 ^ 2 + u.2.2 ^ 2 := by
  rcases lt_or_eq_of_le
      (by positivity : (0 : ℝ) ≤ u.1 ^ 2 + u.2.1 ^ 2 + u.2.2 ^ 2) with hlt | heq
  · exact hlt
  · exfalso
    apply h
    have h1 : u.1 ^ 2 = 0 := by nlinarith [sq_nonneg u.1, sq_nonneg u.2.1, sq_nonneg u.2.2]
    have h2 : u.2.1 ^ 2 = 0 := by nlinarith [sq_nonneg u.1, sq_nonneg u.2.1, sq_nonneg u.2.2]
    have h3 : u.2.2 ^ 2 = 0 := by nlinarith [sq_nonneg u.1, sq_nonneg u.2.1, sq_nonneg u.2.2]
    have e1 : u.1 = 0 := by
      have := sq_eq_zero_iff.mp h1
      exact this
    have e2 : u.2.1 = 0 := sq_eq_zero_iff.mp h2
    have e3 : u.2.2 = 0 := sq_eq_zero_iff.mp h3
    show u = v0R
    rcases u with ⟨a, b, c⟩
    simp only [v0R]
    exact Prod.ext e1 (Prod.ext e2 e3)

/-- Normalising a nonzero 3-vector yields a unit vector. -/
theorem nrm_unitDir (u : Vec3R) (h : u ≠ v0R) : nrm (unitDir u) = 1 := by
  have hq : 0 < u.1 ^ 2 + u.2.1 ^ 2 + u.2.2 ^ 2 := sumsq_pos u h
  have hs : nrm u = Real.sqrt (u.1 ^ 2 + u.2.1 ^ 2 + u.2.2 ^ 2) := rfl
  have hspos : 0 < nrm u := by
    rw [hs]
    exact Real.sqrt_pos.mpr hq
  have hsq : nrm u ^ 2 = u.1 ^ 2 + u.2.1 ^ 2 + u.2.2 ^ 2 := by
    rw [hs]
    exact Real.sq_sqrt hq.le
  show Real.sqrt ((u.1 / nrm u) ^ 2 + (u.2.1 / nrm u) ^ 2 + (u.2.2 / nrm u) ^ 2) = 1
  have : (u.1 / nrm u) ^ 2 + (u.2.1 / nrm u) ^ 2 + (u.2.2 / nrm u) ^ 2 = 1 := by
    field_simp
    linarith [hsq]
  rw [this, Real.sqrt_one]

/-- If two 3-vectors differ, their componentwise difference is nonzero. -/
theorem vsubR_ne_zero (a b : Vec3R) (h : a ≠ b) : vsubR a b ≠ v0R := by
  intro hc
  apply h
  have h1 : a.1 - b.1 = 0 := congrArg Prod.fst hc
  have h2 : a.2.1 - b.2.1 = 0 := congrArg (fun v : Vec3R => v.2.1) hc
  have h3 : a.2.2 - b.2.2 = 0 := congrArg (fun v : Vec3R => v.2.2) hc
  rcases a with ⟨a1, a2, a3⟩
  rcases b with ⟨b1, b2, b3⟩
  simp only at h1 h2 h3
  exact Prod.ext (by linarith) (Prod.ext (by linarith) (by linarith))

/-- **C9 counterexample.**  On a path that revisits its first point, the
2-step window around index 0 is bounded by coinciding k-points, yet the
Window Builder does not fail: the window is still built (no
`DegenerateDirection` error exists in the source) and its direction is the
zero-divided junk vector, not a unit vector. -/
theorem C9_counterexample :
    windowOpt kptsD bandW 2 0 2 = some wC ∧ wC.dir = v0R := by
  constructor
  · rfl
  · have h : wC.dir = unitDir (vsubR (0, 0, 0) (0, 0, 0)) := by rfl
    rw [h]
    simp [unitDir, vsubR, v0R]

/-- **C9 (amended).**  The window direction is
`normalize(k[start] - k[end])`; when the two bounding k-points coincide no
error is raised — the division by the zero norm produces a degenerate
direction (`nan` in IEEE arithmetic, the zero vector in this exact model) and
the window is built anyway — and when they differ the direction is a unit
vector. -/
theorem C9_direction_unit (kpoints : List Vec3R) (band : List ℝ)
    (steps p : ℕ) (x : ℤ) (w : WindowData)
    (hw : windowOpt kpoints band steps p x = some w) :
    w.dir = unitDir (vsubR (kpoints.getD (min p ((p : ℤ) + x).toNat) v0R)
        (kpoints.getD (max p ((p : ℤ) + x).toNat) v0R)) ∧
    (kpoints.getD (min p ((p : ℤ) + x).toNat) v0R
        = kpoints.getD (max p ((p : ℤ) + x).toNat) v0R → w.dir = unitDir v0R) ∧
    (kpoints.getD (min p ((p : ℤ) + x).toNat) v0R
        ≠ kpoints.getD (max p ((p : ℤ) + x).toNat) v0R → nrm w.dir = 1) := by
  unfold windowOpt at hw
  by_cases h : 0 < (p : ℤ) + x ∧ (p : ℤ) + x < (band.length : ℤ)
  · rw [if_pos h] at hw
    have hdir : w.dir = unitDir (vsubR (kpoints.getD (min p ((p : ℤ) + x).toNat) v0R)
        (kpoints.getD (max p ((p : ℤ) + x).toNat) v0R)) := by
      by_cases hneg : x < 0
      · rw [if_pos hneg] at hw
        cases hw
        rfl
      · rw [if_neg hneg] at hw
        cases hw
        rfl
    refine ⟨hdir, fun heq => ?_, fun hne => ?_⟩
    · rw [hdir, heq]
      have : vsubR (kpoints.getD (max p ((p : ℤ) + x).toNat) v0R)
          (kpoints.getD (max p ((p : ℤ) + x).toNat) v0R) = v0R := by
        simp [vsubR, v0R]
      rw [this]
    · rw [hdir]
      exact nrm_unitDir _ (vsubR_ne_zero _ _ hne)
  · rw [if_neg h] at hw
    cases hw

/-- **C9 witness.**  The forward window `wA` is bounded by the distinct
k-points `(1,0,0)` and `(2,0,0)`, so its direction is a unit vector. -/
theorem C9_witness : nrm wA.dir = 1 := by
  have h := C9_direction_unit kptsW bandW 1 1 1 wA (by rfl)
  apply h.2.2
  intro hc
  have h12 : (1 : ℝ) = 2 := congrArg Prod.fst hc
  norm_num at h12

/-- **C3.**  Direct-gap clustering: a strictly smaller gap
(`best.gap - gap > tol`) replaces the cluster with a singleton, a gap within
tolerance (`|best.gap - gap| < tol`) is appended at the end, anything else
leaves the cluster unchanged, and the infinite seed is always replaced.  On
the reported result: a sequence with a single global minimum gap yields a
one-entry cluster, and two k-indices with equal gaps (within `tol`) both
appear, in traversal order. -/
theorem C3_direct_gap_clustering (tol bg : ℚ) (first : EdgePointQ)
    (rest : List EdgePointQ) (num : ℕ) (kpt : Vec3Q) :
    (first.e - bg > tol →
      bgStep tol (first :: rest) num kpt bg = [⟨num, kpt, bg⟩]) ∧
    (|first.e - bg| < tol →
      bgStep tol (first :: rest) num kpt bg = (first :: rest) ++ [⟨num, kpt, bg⟩]) ∧
    (¬ first.e - bg > tol → ¬ |first.e - bg| < tol →
      bgStep tol (first :: rest) num kpt bg = first :: rest) ∧
    bgStep tol [] num kpt bg = [⟨num, kpt, bg⟩] ∧
    (get_band_edges [(0, 0, 0), (1/2, 0, 0), (1, 0, 0)] [0, 0, 0] [5, 1, 5]
        (1/10) [] []).toOption.map EdgeReport.bgDirect
      = some [⟨2, (1/2, 0, 0), 1⟩] ∧
    (get_band_edges [(0, 0, 0), (1/2, 0, 0), (1, 0, 0)] [0, 0, 0] [5, 1, 1]
        (1/10) [] []).toOption.map EdgeReport.bgDirect
      = some [⟨2, (1/2, 0, 0), 1⟩, ⟨3, (1, 0, 0), 1⟩] := by
  refine ⟨fun hgt => ?_, fun habs => ?_, fun hgt habs => ?_, rfl, ?_, ?_⟩
  · simp [bgStep, if_pos hgt]
  · have hgt : ¬ first.e - bg > tol := by
      intro hgt
      have : first.e - bg < tol := lt_of_le_of_lt (le_abs_self _) habs
      linarith
    simp [bgStep, if_neg hgt, if_pos habs]
  · simp [bgStep, if_neg hgt, if_neg habs]
  · norm_num [get_band_edges, vbmsOf, cbmsOf, bgDirectOf, collectEdges, bgFold,
      bgStep, vbmE, cbmE, nearEdge, zip3]
    exact ⟨_, rfl, rfl⟩
  · norm_num [get_band_edges, vbmsOf, cbmsOf, bgDirectOf, collectEdges, bgFold,
      bgStep, vbmE, cbmE, nearEdge, zip3]
    exact ⟨_, rfl, rfl⟩

/-- **C3 witness.**  A concrete strictly-smaller gap (`5 - 1 > 1/10`)
replaces the running cluster with a singleton. -/
theorem C3_witness :
    bgStep (1/10) [⟨1, (0, 0, 0), 5⟩] 2 (1/2, 0, 0) 1 = [⟨2, (1/2, 0, 0), 1⟩] :=
  (C3_direct_gap_clustering (1/10) 1 ⟨1, (0, 0, 0), 5⟩ [] 2 (1/2, 0, 0)).1 (by norm_num)

/-- Accumulator invariant of the running maximum `vbmE`. -/
theorem vbmE_acc (ps : List (ℚ × ℚ)) :
    ∀ m : ℚ, ∃ M, vbmE (some m) ps = some M ∧
      (M = m ∨ M ∈ ps.map Prod.fst) ∧ m ≤ M ∧ ∀ v ∈ ps.map Prod.fst, v ≤ M := by
  induction ps with
  | nil => exact fun m => ⟨m, rfl, Or.inl rfl, le_refl m, by simp⟩
  | cons p rest ih =>
    intro m
    by_cases hpm : p.1 > m
    · obtain ⟨M, hM, hmem, hle, hall⟩ := ih p.1
      refine ⟨M, ?_, ?_, ?_, ?_⟩
      · show vbmE (some m) (p :: rest) = some M
        rw [vbmE, if_pos hpm]
        exact hM
      · rcases hmem with h | h
        · exact Or.inr (by simp [h])
        · exact Or.inr (by simp [h])
      · exact le_trans (le_of_lt hpm) hle
      · intro v hv
        rw [List.map_cons] at hv
        rcases List.mem_cons.mp hv with h | h
        · exact h ▸ hle
        · exact hall v h
    · obtain ⟨M, hM, hmem, hle, hall⟩ := ih m
      refine ⟨M, ?_, ?_, ?_, ?_⟩
      · show vbmE (some m) (p :: rest) = some M
        rw [vbmE, if_neg hpm]
        exact hM
      · rcases hmem with h | h
        · exact Or.inl h
        · exact Or.inr (by simp [h])
      · exact hle
      · intro v hv
        rw [List.map_cons] at hv
        rcases List.mem_cons.mp hv with h | h
        · exact h ▸ le_trans (not_lt.mp hpm) hle
        · exact hall v h

/-- On a nonempty zipped band the running maximum is the maximum of the
valence energies. -/
theorem vbmE_max (p : ℚ × ℚ) (rest : List (ℚ × ℚ)) :
    ∃ M, vbmE none (p :: rest) = some M ∧
      M ∈ (p :: rest).map Prod.fst ∧ ∀ v ∈ (p :: rest).map Prod.fst, v ≤ M := by
  obtain ⟨M, hM, hmem, hle, hall⟩ := vbmE_acc rest p.1
  refine ⟨M, ?_, ?_, ?_⟩
  · show vbmE none (p :: rest) = some M
    rw [vbmE]
    exact hM
  · rcases hmem with h | h
    · simp [h]
    · simp [h]
  · intro v hv
    rw [List.map_cons] at hv
    rcases List.mem_cons.mp hv with h | h
    · exact h ▸ hle
    · exact hall v h

/-- Accumulator invariant of the running minimum `cbmE`. -/
theorem cbmE_acc (ps : List (ℚ × ℚ)) :
    ∀ m : ℚ, ∃ M, cbmE (some m) ps = some M ∧
      (M = m ∨ M ∈ ps.map Prod.snd) ∧ M ≤ m ∧ ∀ c ∈ ps.map Prod.snd, M ≤ c := by
  induction ps with
  | nil => exact fun m => ⟨m, rfl, Or.inl rfl, le_refl m, by simp⟩
  | cons p rest ih =>
    intro m
    by_cases hpm : p.2 < m
    · obtain ⟨M, hM, hmem, hle, hall⟩ := ih p.2
      refine ⟨M, ?_, ?_, ?_, ?_⟩
      · show cbmE (some m) (p :: rest) = some M
        rw [cbmE, if_pos hpm]
        exact hM
      · rcases hmem with h | h
        · exact Or.inr (by simp [h])
        · exact Or.inr (by simp [h])
      · exact le_trans hle (le_of_lt hpm)
      · intro c hc
        rw [List.map_cons] at hc
        rcases List.mem_cons.mp hc with h | h
        · exact h ▸ hle
        · exact hall c h
    · obtain ⟨M, hM, hmem, hle, hall⟩ := ih m
      refine ⟨M, ?_, ?_, ?_, ?_⟩
      · show cbmE (some m) (p :: rest) = some M
        rw [cbmE, if_neg hpm]
        exact hM
      · rcases hmem with h | h
        · exact Or.inl h
        · exact Or.inr (by simp [h])
      · exact hle
      · intro c hc
        rw [List.map_cons] at hc
        rcases List.mem_cons.mp hc with h | h
        · exact h ▸ le_trans hle (not_lt.mp hpm)
        · exact hall c h

/-- On a nonempty zipped band the running minimum is the minimum of the
conduction energies. -/
theorem cbmE_min (p : ℚ × ℚ) (rest : List (ℚ × ℚ)) :
    ∃ M, cbmE none (p :: rest) = some M ∧
      M ∈ (p :: rest).map Prod.snd ∧ ∀ c ∈ (p :: rest).map Prod.snd, M ≤ c := by
  obtain ⟨M, hM, hmem, hle, hall⟩ := cbmE_acc rest p.2
  refine ⟨M, ?_, ?_, ?_⟩
  · show cbmE none (p :: rest) = some M
    rw [cbmE]
    exact hM
  · rcases hmem with h | h
    · simp [h]
    · simp [h]
  · intro c hc
    rw [List.map_cons] at hc
    rcases List.mem_cons.mp hc with h | h
    · exact h ▸ hle
    · exact hall c h

/-- Projecting `zip3` to its first two components gives a binary zip (when
the third list is at least as long as the second). -/
theorem zip3_proj1 :
    ∀ (ks : List Vec3Q) (vs cs : List ℚ), cs.length = vs.length →
      (zip3 ks vs cs).map (fun r => (r.1, r.2.1)) = ks.zip vs := by
  intro ks
  induction ks with
  | nil => intro vs cs _; cases vs <;> cases cs <;> rfl
  | cons k ks ih =>
    intro vs cs h
    cases vs with
    | nil => cases cs <;> rfl
    | cons v vs =>
      cases cs with
      | nil => simp at h
      | cons c cs =>
        show ((k, v, c) :: zip3 ks vs cs).map _ = (k, v) :: ks.zip vs
        rw [List.map_cons, ih vs cs (by simpa using h)]

/-- Projecting `zip3` to its first and third components gives a binary zip
(when the second list is at least as long as the third). -/
theorem zip3_proj2 :
    ∀ (ks : List Vec3Q) (vs cs : List ℚ), vs.length = cs.length →
      (zip3 ks vs cs).map (fun r => (r.1, r.2.2)) = ks.zip cs := by
  intro ks
  induction ks with
  | nil => intro vs cs _; cases vs <;> cases cs <;> rfl
  | cons k ks ih =>
    intro vs cs h
    cases vs with
    | nil => cases cs <;> first | rfl | simp at h
    | cons v vs =>
      cases cs with
      | nil => rfl
      | cons c cs =>
        show ((k, v, c) :: zip3 ks vs cs).map _ = (k, c) :: ks.zip cs
        rw [List.map_cons, ih vs cs (by simpa using h)]

/-- Indexing a binary zip with a default pairs the two defaults. -/
theorem zip_getD (ks : List Vec3Q) :
    ∀ (vs : List ℚ) (j : ℕ), j < ks.length → j < vs.length →
      (ks.zip vs).getD j (q0, 0) = (ks.getD j q0, vs.getD j 0) := by
  induction ks with
  | nil => intro vs j h _; simp at h
  | cons k ks ih =>
    intro vs j hj hj'
    cases vs with
    | nil => simp at hj'
    | cons v vs =>
      cases j with
      | zero => rfl
      | succ j =>
        show (ks.zip vs).getD j (q0, 0) = (ks.getD j q0, vs.getD j 0)
        exact ih vs j (by simpa using hj) (by simpa using hj')

/-- `filterMap` over `range n` only depends on values below `n`. -/
theorem filterMap_range_congr {α : Type} (f g : ℕ → Option α) :
    ∀ n : ℕ, (∀ j, j < n → f j = g j) →
      (List.range n).filterMap f = (List.range n).filterMap g := by
  intro n
  induction n with
  | zero => intro _; rfl
  | succ n ih =>
    intro h
    rw [List.range_succ, List.filterMap_append, List.filterMap_append,
      ih (fun j hj => h j (by omega))]
    congr 1
    rw [List.filterMap_cons, List.filterMap_cons, h n (by omega)]
    cases g n <;> rfl

/-- The index-counting traversal `collectEdges` is the filter of the rows by
position: entry `j` (0-based) appears, with 1-based index `k0 + j`, exactly
when it is forced or within tolerance. -/
theorem collectEdges_range (forced : List ℕ) (tol M : ℚ) :
    ∀ (rows : List (Vec3Q × ℚ)) (k0 : ℕ),
      collectEdges forced tol (some M) rows k0 =
        (List.range rows.length).filterMap fun j =>
          if (k0 + j) ∈ forced ∨ |(rows.getD j (q0, 0)).2 - M| < tol then
            some ⟨k0 + j, (rows.getD j (q0, 0)).1, (rows.getD j (q0, 0)).2⟩
          else none := by
  intro rows
  induction rows with
  | nil => intro k0; rfl
  | cons r rest ih =>
    intro k0
    rcases r with ⟨kpt, e⟩
    have hc1 : (k0 ∈ forced ∨ nearEdge tol (some M) e = true) ↔
        (k0 ∈ forced ∨ |e - M| < tol) := by
      simp [nearEdge]
    have hstep : ∀ j : ℕ, (((kpt, e) :: rest).getD (j + 1) (q0, 0)) = rest.getD j (q0, 0) :=
      fun j => rfl
    rw [collectEdges]
    show _ = (List.range (rest.length + 1)).filterMap _
    rw [List.range_succ_eq_map, List.filterMap_cons, List.filterMap_map]
    by_cases hc : k0 ∈ forced ∨ |e - M| < tol
    · rw [if_pos (hc1.mpr hc)]
      have h0 : (if (k0 + 0) ∈ forced ∨ |(((kpt, e) :: rest).getD 0 (q0, 0)).2 - M| < tol then
          some (⟨k0 + 0, (((kpt, e) :: rest).getD 0 (q0, 0)).1,
            (((kpt, e) :: rest).getD 0 (q0, 0)).2⟩ : EdgePointQ)
          else none) = some ⟨k0, kpt, e⟩ := by
        rw [if_pos (by simpa using hc)]
        rfl
      rw [h0]
      congr 1
      rw [ih (k0 + 1)]
      apply filterMap_range_congr
      intro j hj
      simp only [Function.comp]
      rw [hstep j, show k0 + (j + 1) = k0 + 1 + j by omega]
    · rw [if_neg (fun hcon => hc (hc1.mp hcon))]
      have h0 : (if (k0 + 0) ∈ forced ∨ |(((kpt, e) :: rest).getD 0 (q0, 0)).2 - M| < tol then
          some (⟨k0 + 0, (((kpt, e) :: rest).getD 0 (q0, 0)).1,
            (((kpt, e) :: rest).getD 0 (q0, 0)).2⟩ : EdgePointQ)
          else none) = none := by
        rw [if_neg (by simpa using hc)]
      rw [h0]
      rw [ih (k0 + 1)]
      apply filterMap_range_congr
      intro j hj
      simp only [Function.comp]
      rw [hstep j, show k0 + (j + 1) = k0 + 1 + j by omega]

/-- `vbms` is exactly the claim-side filter `edgeSpec` over the valence
band. -/
theorem vbms_eq_edgeSpec (kpoints : List Vec3Q) (vb cb : List ℚ) (tol M : ℚ)
    (vkpts : List ℕ) (hM : vbmE none (vb.zip cb) = some M)
    (hcb : cb.length = vb.length) (hkp : kpoints.length = vb.length) :
    vbmsOf kpoints vb cb tol vkpts = edgeSpec kpoints vb tol M vkpts := by
  unfold vbmsOf edgeSpec
  rw [hM, zip3_proj1 kpoints vb cb hcb, collectEdges_range]
  have hlz : (kpoints.zip vb).length = vb.length := by
    rw [List.length_zip, hkp, Nat.min_self]
  rw [hlz]
  apply filterMap_range_congr
  intro j hj
  rw [zip_getD kpoints vb j (by omega) hj, show 1 + j = j + 1 by omega]

/-- `cbms` is exactly the claim-side filter `edgeSpec` over the conduction
band. -/
theorem cbms_eq_edgeSpec (kpoints : List Vec3Q) (vb cb : List ℚ) (tol m : ℚ)
    (ckpts : List ℕ) (hm : cbmE none (vb.zip cb) = some m)
    (hcb : cb.length = vb.length) (hkp : kpoints.length = vb.length) :
    cbmsOf kpoints vb cb tol ckpts = edgeSpec kpoints cb tol m ckpts := by
  unfold cbmsOf edgeSpec
  rw [hm, zip3_proj2 kpoints vb cb hcb.symm, collectEdges_range]
  have hlz : (kpoints.zip cb).length = cb.length := by
    rw [List.length_zip, hkp, hcb, Nat.min_self]
  rw [hlz]
  apply filterMap_range_congr
  intro j hj
  rw [zip_getD kpoints cb j (by omega) hj, show 1 + j = j + 1 by omega]

/-- The band-edge energy itself always passes the tolerance test, so the
edge-point list is nonempty. -/
theorem edgeSpec_ne_nil (kpoints : List Vec3Q) (band : List ℚ) (tol M : ℚ)
    (forced : List ℕ) (htol : 0 < tol) (hM : M ∈ band) :
    edgeSpec kpoints band tol M forced ≠ [] := by
  obtain ⟨j, hj, hget⟩ := List.mem_iff_getElem.mp hM
  intro hnil
  have hall := List.filterMap_eq_nil_iff.mp hnil j (List.mem_range.mpr hj)
  rw [if_pos] at hall
  · exact Option.some_ne_none _ hall
  · right
    rw [List.getD_eq_getElem band 0 hj, hget]
    simpa using htol

/-- Main structure lemma for the Edge Finder: the running extrema are the
band maximum/minimum and the collected lists are the `edgeSpec` filters,
which are nonempty. -/
theorem band_edges_master (kpoints : List Vec3Q) (vb cb : List ℚ) (tol : ℚ)
    (vkpts ckpts : List ℕ) (hne : vb ≠ []) (hcb : cb.length = vb.length)
    (hkp : kpoints.length = vb.length) (htol : 0 < tol) :
    ∃ M m, vbmE none (vb.zip cb) = some M ∧ M ∈ vb ∧ (∀ v ∈ vb, v ≤ M) ∧
      cbmE none (vb.zip cb) = some m ∧ m ∈ cb ∧ (∀ c ∈ cb, m ≤ c) ∧
      vbmsOf kpoints vb cb tol vkpts = edgeSpec kpoints vb tol M vkpts ∧
      cbmsOf kpoints vb cb tol ckpts = edgeSpec kpoints cb tol m ckpts ∧
      vbmsOf kpoints vb cb tol vkpts ≠ [] ∧
      cbmsOf kpoints vb cb tol ckpts ≠ [] := by
  have hvlen : 0 < vb.length := List.length_pos.mpr hne
  have hmapf : (vb.zip cb).map Prod.fst = vb := List.map_fst_zip vb cb (by omega)
  have hmaps : (vb.zip cb).map Prod.snd = cb := List.map_snd_zip vb cb (by omega)
  have hzne : vb.zip cb ≠ [] := by
    intro h
    have hl := congrArg List.length h
    rw [List.length_zip] at hl
    simp only [List.length_nil] at hl
    omega
  obtain ⟨p, rest, hzip⟩ := List.exists_cons_of_ne_nil hzne
  obtain ⟨M, hM, hMmem, hMall⟩ := vbmE_max p rest
  obtain ⟨m, hm, hmmem, hmall⟩ := cbmE_min p rest
  rw [← hzip] at hM hm hMmem hMall hmmem hmall
  rw [hmapf] at hMmem hMall
  rw [hmaps] at hmmem hmall
  have hveq := vbms_eq_edgeSpec kpoints vb cb tol M vkpts hM hcb hkp
  have hceq := cbms_eq_edgeSpec kpoints vb cb tol m ckpts hm hcb hkp
  refine ⟨M, m, hM, hMmem, hMall, hm, hmmem, hmall, hveq, hceq, ?_, ?_⟩
  · rw [hveq]
    exact edgeSpec_ne_nil kpoints vb tol M vkpts htol hMmem
  · rw [hceq]
    exact edgeSpec_ne_nil kpoints cb tol m ckpts htol hmmem

/-- **C4.**  For aligned nonempty bands and `tol > 0`: `vbm_points` contains
exactly the 1-based k-indices that are forced or whose valence energy is
within `tol` of `max(vb)`, each paired with its k-point and energy, in
ascending k-index order, and is nonempty (the maximising index always passes
the tolerance test); symmetrically `cbm_points` with `min(cb)`. -/
theorem C4_band_edge_points (kpoints : List Vec3Q) (vb cb : List ℚ) (tol : ℚ)
    (vkpts ckpts : List ℕ) (hne : vb ≠ []) (hcb : cb.length = vb.length)
    (hkp : kpoints.length = vb.length) (htol : 0 < tol) :
    ∃ M m, vbmE none (vb.zip cb) = some M ∧ M ∈ vb ∧ (∀ v ∈ vb, v ≤ M) ∧
      cbmE none (vb.zip cb) = some m ∧ m ∈ cb ∧ (∀ c ∈ cb, m ≤ c) ∧
      vbmsOf kpoints vb cb tol vkpts = edgeSpec kpoints vb tol M vkpts ∧
      cbmsOf kpoints vb cb tol ckpts = edgeSpec kpoints cb tol m ckpts ∧
      vbmsOf kpoints vb cb tol vkpts ≠ [] ∧
      cbmsOf kpoints vb cb tol ckpts ≠ [] :=
  band_edges_master kpoints vb cb tol vkpts ckpts hne hcb hkp htol

/-- **C4 witness.**  The concrete scenario path instantiates C4. -/
theorem C4_witness :
    ∃ M m,
      vbmE none (([-1, -1/5, -1] : List ℚ).zip [3, 2, 3]) = some M ∧
      M ∈ ([-1, -1/5, -1] : List ℚ) ∧ (∀ v ∈ ([-1, -1/5, -1] : List ℚ), v ≤ M) ∧
      cbmE none (([-1, -1/5, -1] : List ℚ).zip [3, 2, 3]) = some m ∧
      m ∈ ([3, 2, 3] : List ℚ) ∧ (∀ c ∈ ([3, 2, 3] : List ℚ), m ≤ c) ∧
      vbmsOf [(0, 0, 0), (1/2, 0, 0), (1, 0, 0)] [-1, -1/5, -1] [3, 2, 3] (1/10000) []
        = edgeSpec [(0, 0, 0), (1/2, 0, 0), (1, 0, 0)] [-1, -1/5, -1] (1/10000) M [] ∧
      cbmsOf [(0, 0, 0), (1/2, 0, 0), (1, 0, 0)] [-1, -1/5, -1] [3, 2, 3] (1/10000) []
        = edgeSpec [(0, 0, 0), (1/2, 0, 0), (1, 0, 0)] [3, 2, 3] (1/10000) m [] ∧
      vbmsOf [(0, 0, 0), (1/2, 0, 0), (1, 0, 0)] [-1, -1/5, -1] [3, 2, 3] (1/10000) [] ≠ [] ∧
      cbmsOf [(0, 0, 0), (1/2, 0, 0), (1, 0, 0)] [-1, -1/5, -1] [3, 2, 3] (1/10000) [] ≠ [] :=
  C4_band_edge_points [(0, 0, 0), (1/2, 0, 0), (1, 0, 0)] [-1, -1/5, -1] [3, 2, 3]
    (1/10000) [] [] (by simp) (by rfl) (by rfl) (by norm_num)

/-- The head of a `filterMap` over `range n` comes from the least index at
which the function fires. -/
theorem range_filterMap_head {α : Type} :
    ∀ (n : ℕ) (f : ℕ → Option α) (a : α) (l : List α),
      (List.range n).filterMap f = a :: l →
      ∃ j, j < n ∧ f j = some a ∧ ∀ i, i < j → f i = none := by
  intro n
  induction n with
  | zero => intro f a l h; simp at h
  | succ n ih =>
    intro f a l h
    rw [List.range_succ_eq_map] at h
    cases hf0 : f 0 with
    | some b =>
      rw [List.filterMap_cons_some hf0] at h
      injection h with hba _
      exact ⟨0, by omega, by rw [hf0, hba], fun i hi => absurd hi (by omega)⟩
    | none =>
      rw [List.filterMap_cons_none hf0, List.filterMap_map] at h
      obtain ⟨j, hj, hfj, hnone⟩ := ih (f ∘ Nat.succ) a l h
      refine ⟨j + 1, by omega, hfj, ?_⟩
      intro i hi
      cases i with
      | zero => exact hf0
      | succ i => exact hnone i (by omega)

/-- When both edge lists are nonempty, `get_band_edges` succeeds and reports
the gap between the heads of the two lists. -/
theorem get_band_edges_ok (kpoints : List Vec3Q) (vb cb : List ℚ) (tol : ℚ)
    (vkpts ckpts : List ℕ)
    (hv : vbmsOf kpoints vb cb tol vkpts ≠ [])
    (hc : cbmsOf kpoints vb cb tol ckpts ≠ []) :
    get_band_edges kpoints vb cb tol vkpts ckpts =
      .ok ⟨vbmsOf kpoints vb cb tol vkpts, cbmsOf kpoints vb cb tol ckpts,
        ((cbmsOf kpoints vb cb tol ckpts).headD ⟨0, q0, 0⟩).e
          - ((vbmsOf kpoints vb cb tol vkpts).headD ⟨0, q0, 0⟩).e,
        bgDirectOf kpoints vb cb tol⟩ := by
  rcases hve : vbmsOf kpoints vb cb tol vkpts with _ | ⟨vf, vr⟩
  · exact absurd hve hv
  rcases hce : cbmsOf kpoints vb cb tol ckpts with _ | ⟨cf, cr⟩
  · exact absurd hce hc
  unfold get_band_edges
  rw [hve, hce]
  rfl

/-- **C6.**  For aligned nonempty inputs the reported indirect gap is the
energy of the *first* conduction-minimum point found in traversal order minus
the energy of the *first* valence-maximum point found in traversal order
(first-found pairing: `i` and `j` below are the least qualifying indices,
not global extremum positions). -/
theorem C6_indirect_gap (kpoints : List Vec3Q) (vb cb : List ℚ) (tol : ℚ)
    (vkpts ckpts : List ℕ) (hne : vb ≠ []) (hcb : cb.length = vb.length)
    (hkp : kpoints.length = vb.length) (htol : 0 < tol) :
    ∃ M m rep i j,
      vbmE none (vb.zip cb) = some M ∧ cbmE none (vb.zip cb) = some m ∧
      get_band_edges kpoints vb cb tol vkpts ckpts = .ok rep ∧
      i < vb.length ∧ j < cb.length ∧
      ((i + 1) ∈ vkpts ∨ |vb.getD i 0 - M| < tol) ∧
      (∀ i', i' < i → ¬ ((i' + 1) ∈ vkpts ∨ |vb.getD i' 0 - M| < tol)) ∧
      ((j + 1) ∈ ckpts ∨ |cb.getD j 0 - m| < tol) ∧
      (∀ j', j' < j → ¬ ((j' + 1) ∈ ckpts ∨ |cb.getD j' 0 - m| < tol)) ∧
      rep.bgIndirect = cb.getD j 0 - vb.getD i 0 := by
  obtain ⟨M, m, hM, hMmem, hMall, hm, hmmem, hmall, hveq, hceq, hvne, hcne⟩ :=
    band_edges_master kpoints vb cb tol vkpts ckpts hne hcb hkp htol
  rcases hve : vbmsOf kpoints vb cb tol vkpts with _ | ⟨vf, vr⟩
  · exact absurd hve hvne
  rcases hce : cbmsOf kpoints vb cb tol ckpts with _ | ⟨cf, cr⟩
  · exact absurd hce hcne
  have hvspec : edgeSpec kpoints vb tol M vkpts = vf :: vr := by rw [← hveq, hve]
  have hcspec : edgeSpec kpoints cb tol m ckpts = cf :: cr := by rw [← hceq, hce]
  obtain ⟨i, hi, hfi, hprevi⟩ := range_filterMap_head vb.length _ vf vr hvspec
  obtain ⟨j, hj, hfj, hprevj⟩ := range_filterMap_head cb.length _ cf cr hcspec
  have hcondi : (i + 1) ∈ vkpts ∨ |vb.getD i 0 - M| < tol := by
    by_contra hcon
    rw [if_neg hcon] at hfi
    exact Option.noConfusion hfi
  have hcondj : (j + 1) ∈ ckpts ∨ |cb.getD j 0 - m| < tol := by
    by_contra hcon
    rw [if_neg hcon] at hfj
    exact Option.noConfusion hfj
  have hvf : vf = ⟨i + 1, kpoints.getD i q0, vb.getD i 0⟩ := by
    rw [if_pos hcondi] at hfi
    exact (Option.some.injEq _ _).mp hfi |>.symm
  have hcf : cf = ⟨j + 1, kpoints.getD j q0, cb.getD j 0⟩ := by
    rw [if_pos hcondj] at hfj
    exact (Option.some.injEq _ _).mp hfj |>.symm
  refine ⟨M, m, _, i, j, hM, hm,
    get_band_edges_ok kpoints vb cb tol vkpts ckpts hvne hcne, hi, hj,
    hcondi, ?_, hcondj, ?_, ?_⟩
  · intro i' hi'
    intro hcon
    have := hprevi i' hi'
    rw [if_pos hcon] at this
    exact Option.noConfusion this
  · intro j' hj'
    intro hcon
    have := hprevj j' hj'
    rw [if_pos hcon] at this
    exact Option.noConfusion this
  · show (((cbmsOf kpoints vb cb tol ckpts).headD ⟨0, q0, 0⟩).e
        - ((vbmsOf kpoints vb cb tol vkpts).headD ⟨0, q0, 0⟩).e) = _
    rw [hve, hce]
    show cf.e - vf.e = _
    rw [hvf, hcf]

/-- **C6 witness.**  The scenario path instantiates C6; there the first
found VBM/CBM points are both at k-index 2. -/
theorem C6_witness :
    ∃ M m rep i j,
      vbmE none (([-1, -1/5, -1] : List ℚ).zip [3, 2, 3]) = some M ∧
      cbmE none (([-1, -1/5, -1] : List ℚ).zip [3, 2, 3]) = some m ∧
      get_band_edges [(0, 0, 0), (1/2, 0, 0), (1, 0, 0)] [-1, -1/5, -1] [3, 2, 3]
        (1/10000) [] [] = .ok rep ∧
      i < ([-1, -1/5, -1] : List ℚ).length ∧ j < ([3, 2, 3] : List ℚ).length ∧
      ((i + 1) ∈ ([] : List ℕ) ∨ |([-1, -1/5, -1] : List ℚ).getD i 0 - M| < 1/10000) ∧
      (∀ i', i' < i →
        ¬ ((i' + 1) ∈ ([] : List ℕ) ∨ |([-1, -1/5, -1] : List ℚ).getD i' 0 - M| < 1/10000)) ∧
      ((j + 1) ∈ ([] : List ℕ) ∨ |([3, 2, 3] : List ℚ).getD j 0 - m| < 1/10000) ∧
      (∀ j', j' < j →
        ¬ ((j' + 1) ∈ ([] : List ℕ) ∨ |([3, 2, 3] : List ℚ).getD j' 0 - m| < 1/10000)) ∧
      rep.bgIndirect = ([3, 2, 3] : List ℚ).getD j 0 - ([-1, -1/5, -1] : List ℚ).getD i 0 :=
  C6_indirect_gap [(0, 0, 0), (1/2, 0, 0), (1, 0, 0)] [-1, -1/5, -1] [3, 2, 3]
    (1/10000) [] [] (by simp) (by rfl) (by rfl) (by norm_num)

/-- `zip3` with an empty second list is empty. -/
theorem zip3_nil_mid (ks : List Vec3Q) (cs : List ℚ) :
    zip3 ks ([] : List ℚ) cs = [] := by
  cases ks <;> cases cs <;> rfl

/-- `zip3` with an empty third list is empty. -/
theorem zip3_nil_last (ks : List Vec3Q) (vs : List ℚ) :
    zip3 ks vs ([] : List ℚ) = [] := by
  cases ks <;> cases vs <;> rfl

/-- **C8 counterexample.**  With empty bands the Edge Finder does fail, but
with the (modelled) uncaught `IndexError` from `cbms[0]`/`vbms[0]` on
line 178, not with the spec's `InvalidInput` kind, which the source never
produces. -/
theorem C8_counterexample :
    get_band_edges ([] : List Vec3Q) [] [] 1 [] [] = .error .indexError ∧
      EdgeError.indexError ≠ EdgeError.invalidInput :=
  ⟨rfl, by decide⟩

/-- **C8 (amended).**  If the valence or conduction sequence is empty, the
Edge Finder fails — with an index error on taking the first edge point, there
being no dedicated `InvalidInput` kind — and for nonempty aligned inputs with
positive tolerance it does not fail at all. -/
theorem C8_empty_input (kpoints : List Vec3Q) (vb cb : List ℚ) (tol : ℚ)
    (vkpts ckpts : List ℕ) :
    ((vb = [] ∨ cb = []) →
      get_band_edges kpoints vb cb tol vkpts ckpts = .error .indexError) ∧
    (vb ≠ [] → cb.length = vb.length → kpoints.length = vb.length → 0 < tol →
      ∃ rep, get_band_edges kpoints vb cb tol vkpts ckpts = .ok rep) := by
  constructor
  · intro h
    have hz : zip3 kpoints vb cb = [] := by
      rcases h with h | h <;> subst h
      · exact zip3_nil_mid kpoints cb
      · exact zip3_nil_last kpoints vb
    have hv : vbmsOf kpoints vb cb tol vkpts = [] := by
      unfold vbmsOf
      rw [hz]
      rfl
    have hc : cbmsOf kpoints vb cb tol ckpts = [] := by
      unfold cbmsOf
      rw [hz]
      rfl
    unfold get_band_edges
    rw [hv, hc]
  · intro hne hcb hkp htol
    obtain ⟨M, m, _, _, _, _, _, _, _, _, hvne, hcne⟩ :=
      band_edges_master kpoints vb cb tol vkpts ckpts hne hcb hkp htol
    exact ⟨_, get_band_edges_ok kpoints vb cb tol vkpts ckpts hvne hcne⟩

/-- **C8 witness.**  Concrete instances of both halves: empty input fails
with the index error; the nonempty scenario input succeeds. -/
theorem C8_witness :
    get_band_edges ([] : List Vec3Q) [] [] 1 [] [] = .error .indexError ∧
    ∃ rep, get_band_edges [(0, 0, 0), (1/2, 0, 0), (1, 0, 0)] [-1, -1/5, -1]
      [3, 2, 3] (1/10000) [] [] = .ok rep :=
  ⟨(C8_empty_input [] [] [] 1 [] []).1 (Or.inl rfl),
   (C8_empty_input [(0, 0, 0), (1/2, 0, 0), (1, 0, 0)] [-1, -1/5, -1] [3, 2, 3]
      (1/10000) [] []).2 (by simp) (by rfl) (by rfl) (by norm_num)⟩

/-- Power sums over a prepended sample. -/
theorem Spow_cons (q : ℝ × ℝ) (pts : List (ℝ × ℝ)) (k : ℕ) :
    Spow (q :: pts) k = q.1 ^ k + Spow pts k := by
  simp [Spow]

/-- Moment sums over a prepended sample. -/
theorem Tmom_cons (q : ℝ × ℝ) (pts : List (ℝ × ℝ)) (k : ℕ) :
    Tmom (q :: pts) k = q.1 ^ k * q.2 + Tmom pts k := by
  simp [Tmom]

/-- Negating all abscissas scales the power sums by `(-1)^k`. -/
theorem Spow_negFst (pts : List (ℝ × ℝ)) (k : ℕ) :
    Spow (pts.map fun q => (-q.1, q.2)) k = (-1) ^ k * Spow pts k := by
  induction pts with
  | nil => simp [Spow]
  | cons q pts ih =>
    rw [List.map_cons, Spow_cons, Spow_cons, ih]
    show (-q.1) ^ k + (-1) ^ k * Spow pts k = _
    rw [neg_pow]
    ring

/-- Negating all abscissas scales the moment sums by `(-1)^k`. -/
theorem Tmom_negFst (pts : List (ℝ × ℝ)) (k : ℕ) :
    Tmom (pts.map fun q => (-q.1, q.2)) k = (-1) ^ k * Tmom pts k := by
  induction pts with
  | nil => simp [Tmom]
  | cons q pts ih =>
    rw [List.map_cons, Tmom_cons, Tmom_cons, ih]
    show (-q.1) ^ k * q.2 + (-1) ^ k * Tmom pts k = _
    rw [neg_pow]
    ring

/-- Zipping negated abscissas equals mapping negation over the zip. -/
theorem xzip_neg (xs : List ℝ) :
    ∀ ys : List ℝ, (xs.map Neg.neg).zip ys = (xs.zip ys).map fun q => (-q.1, q.2) := by
  induction xs with
  | nil => intro ys; rfl
  | cons x xs ih =>
    intro ys
    cases ys with
    | nil => rfl
    | cons y ys =>
      show (-x, y) :: (xs.map Neg.neg).zip ys = (-x, y) :: ((xs.zip ys).map _)
      rw [ih ys]

/-- The Gram determinant is invariant under negating the abscissas. -/
theorem detA_neg (pts : List (ℝ × ℝ)) :
    detA (pts.map fun q => (-q.1, q.2)) = detA pts := by
  simp only [detA, Spow_negFst]
  ring

/-- The Cramer numerator of the quadratic coefficient is invariant under
negating the abscissas. -/
theorem detN1_neg (pts : List (ℝ × ℝ)) :
    detN1 (pts.map fun q => (-q.1, q.2)) = detN1 pts := by
  simp only [detN1, Spow_negFst, Tmom_negFst]
  ring

/-- The fitted quadratic coefficient is invariant under negating the
abscissas. -/
theorem polyfit2a_neg (pts : List (ℝ × ℝ)) :
    polyfit2a (pts.map fun q => (-q.1, q.2)) = polyfit2a pts := by
  unfold polyfit2a
  rw [detA_neg, detN1_neg]

/-- **C7.**  Reversing the window's direction vector leaves the computed
effective mass unchanged: the projected x-coordinates negate uniformly, and
the quadratic coefficient of the degree-2 least-squares fit is unchanged. -/
theorem C7_direction_sign_invariance (data : WindowData) (B : Mat3) :
    calc_em ⟨data.start, data.endIdx, data.vals, data.label, vnegR data.dir,
        data.kpoints⟩ B = calc_em data B ∧
    polyfit2a ((data.kpoints.map (projX (vnegR data.dir) (lengthsOf B))).zip data.vals)
      = polyfit2a ((data.kpoints.map (projX data.dir (lengthsOf B))).zip data.vals) := by
  have hx : data.kpoints.map (projX (vnegR data.dir) (lengthsOf B))
      = (data.kpoints.map (projX data.dir (lengthsOf B))).map Neg.neg := by
    rw [List.map_map]
    apply List.map_congr_left
    intro k _
    show projX (vnegR data.dir) (lengthsOf B) k = -(projX data.dir (lengthsOf B) k)
    unfold projX vnegR
    ring
  have ha : polyfit2a ((data.kpoints.map (projX (vnegR data.dir) (lengthsOf B))).zip data.vals)
      = polyfit2a ((data.kpoints.map (projX data.dir (lengthsOf B))).zip data.vals) := by
    rw [hx, xzip_neg, polyfit2a_neg]
  refine ⟨?_, ha⟩
  show 7.61996348863 /
      (polyfit2a ((data.kpoints.map (projX (vnegR data.dir) (lengthsOf B))).zip data.vals) * 2)
    = 7.61996348863 /
      (polyfit2a ((data.kpoints.map (projX data.dir (lengthsOf B))).zip data.vals) * 2)
  rw [ha]

/-- Squared ordinates over a prepended sample. -/
theorem Ysq_cons (q : ℝ × ℝ) (pts : List (ℝ × ℝ)) :
    Ysq (q :: pts) = q.2 ^ 2 + Ysq pts := by
  simp [Ysq]

/-- Residual sum of squares over a prepended sample. -/
theorem rss_cons (a b c : ℝ) (q : ℝ × ℝ) (pts : List (ℝ × ℝ)) :
    rss a b c (q :: pts)
      = (a * q.1 ^ 2 + b * q.1 + c - q.2) ^ 2 + rss a b c pts := by
  simp [rss]

/-- Homogeneous quadratic sum over a prepended sample. -/
theorem qss_cons (u v w : ℝ) (q : ℝ × ℝ) (pts : List (ℝ × ℝ)) :
    qss u v w (q :: pts) = (u * q.1 ^ 2 + v * q.1 + w) ^ 2 + qss u v w pts := by
  simp [qss]

/-- The residual sum of squares expands into power, moment and ordinate
sums. -/
theorem rss_expand (a b c : ℝ) (pts : List (ℝ × ℝ)) :
    rss a b c pts =
      a ^ 2 * Spow pts 4 + 2 * a * b * Spow pts 3 + (2 * a * c + b ^ 2) * Spow pts 2
        + 2 * b * c * Spow pts 1 + c ^ 2 * Spow pts 0
        - 2 * a * Tmom pts 2 - 2 * b * Tmom pts 1 - 2 * c * Tmom pts 0 + Ysq pts := by
  induction pts with
  | nil =>
    simp [rss, Spow, Tmom, Ysq]
  | cons q pts ih =>
    rw [rss_cons, ih, Spow_cons, Spow_cons, Spow_cons, Spow_cons, Spow_cons,
      Tmom_cons, Tmom_cons, Tmom_cons, Ysq_cons]
    ring

/-- The homogeneous quadratic sum expands into power sums. -/
theorem qss_expand (u v w : ℝ) (pts : List (ℝ × ℝ)) :
    qss u v w pts =
      u ^ 2 * Spow pts 4 + 2 * u * v * Spow pts 3 + (2 * u * w + v ^ 2) * Spow pts 2
        + 2 * v * w * Spow pts 1 + w ^ 2 * Spow pts 0 := by
  induction pts with
  | nil =>
    simp [qss, Spow]
  | cons q pts ih =>
    rw [qss_cons, ih, Spow_cons, Spow_cons, Spow_cons, Spow_cons, Spow_cons]
    ring

/-- A sum of squares is nonnegative. -/
theorem qss_nonneg (u v w : ℝ) (pts : List (ℝ × ℝ)) : 0 ≤ qss u v w pts := by
  induction pts with
  | nil => simp [qss]
  | cons q pts ih =>
    rw [qss_cons]
    have := sq_nonneg (u * q.1 ^ 2 + v * q.1 + w)
    linarith

/-- Cramer consistency for the first normal equation (a polynomial
identity). -/
theorem NE1raw (pts : List (ℝ × ℝ)) :
    detN1 pts * Spow pts 4 + detN2 pts * Spow pts 3 + detN3 pts * Spow pts 2
      = Tmom pts 2 * detA pts := by
  unfold detN1 detN2 detN3 detA
  ring

/-- Cramer consistency for the second normal equation. -/
theorem NE2raw (pts : List (ℝ × ℝ)) :
    detN1 pts * Spow pts 3 + detN2 pts * Spow pts 2 + detN3 pts * Spow pts 1
      = Tmom pts 1 * detA pts := by
  unfold detN1 detN2 detN3 detA
  ring

/-- Cramer consistency for the third normal equation. -/
theorem NE3raw (pts : List (ℝ × ℝ)) :
    detN1 pts * Spow pts 2 + detN2 pts * Spow pts 1 + detN3 pts * Spow pts 0
      = Tmom pts 0 * detA pts := by
  unfold detN1 detN2 detN3 detA
  ring

/-- First normal equation for the fitted coefficients. -/
theorem NE1 (pts : List (ℝ × ℝ)) (hdet : detA pts ≠ 0) :
    polyfit2a pts * Spow pts 4 + polyfit2b pts * Spow pts 3
      + polyfit2c pts * Spow pts 2 = Tmom pts 2 := by
  unfold polyfit2a polyfit2b polyfit2c
  rw [div_mul_eq_mul_div, div_mul_eq_mul_div, div_mul_eq_mul_div,
    div_add_div_same, div_add_div_same, NE1raw pts]
  exact mul_div_cancel_right₀ _ hdet

/-- Second normal equation for the fitted coefficients. -/
theorem NE2 (pts : List (ℝ × ℝ)) (hdet : detA pts ≠ 0) :
    polyfit2a pts * Spow pts 3 + polyfit2b pts * Spow pts 2
      + polyfit2c pts * Spow pts 1 = Tmom pts 1 := by
  unfold polyfit2a polyfit2b polyfit2c
  rw [div_mul_eq_mul_div, div_mul_eq_mul_div, div_mul_eq_mul_div,
    div_add_div_same, div_add_div_same, NE2raw pts]
  exact mul_div_cancel_right₀ _ hdet

/-- Third normal equation for the fitted coefficients. -/
theorem NE3 (pts : List (ℝ × ℝ)) (hdet : detA pts ≠ 0) :
    polyfit2a pts * Spow pts 2 + polyfit2b pts * Spow pts 1
      + polyfit2c pts * Spow pts 0 = Tmom pts 0 := by
  unfold polyfit2a polyfit2b polyfit2c
  rw [div_mul_eq_mul_div, div_mul_eq_mul_div, div_mul_eq_mul_div,
    div_add_div_same, div_add_div_same, NE3raw pts]
  exact mul_div_cancel_right₀ _ hdet

/-- Completing the square: the residual of any candidate decomposes into the
residual of a reference, the squared difference, and a cross term through the
normal-equation residuals. -/
theorem rss_decompose (a b c a2 b2 c2 : ℝ) (pts : List (ℝ × ℝ)) :
    rss a2 b2 c2 pts = rss a b c pts + qss (a2 - a) (b2 - b) (c2 - c) pts
      + 2 * ((a2 - a) * (a * Spow pts 4 + b * Spow pts 3 + c * Spow pts 2 - Tmom pts 2)
        + (b2 - b) * (a * Spow pts 3 + b * Spow pts 2 + c * Spow pts 1 - Tmom pts 1)
        + (c2 - c) * (a * Spow pts 2 + b * Spow pts 1 + c * Spow pts 0 - Tmom pts 0)) := by
  rw [rss_expand, rss_expand, qss_expand]
  ring

/-- The Cramer coefficients minimise the residual sum of squares: the normal
equations make the cross term of the residual decomposition vanish, leaving
a nonnegative sum of squares. -/
theorem polyfit2_least_squares (pts : List (ℝ × ℝ)) (hdet : detA pts ≠ 0)
    (a2 b2 c2 : ℝ) :
    rss (polyfit2a pts) (polyfit2b pts) (polyfit2c pts) pts ≤ rss a2 b2 c2 pts := by
  rw [rss_decompose (polyfit2a pts) (polyfit2b pts) (polyfit2c pts) a2 b2 c2 pts,
    NE1 pts hdet, NE2 pts hdet, NE3 pts hdet]
  simp only [sub_self, mul_zero, add_zero, zero_add]
  have := qss_nonneg (a2 - polyfit2a pts) (b2 - polyfit2b pts) (c2 - polyfit2c pts) pts
  linarith

/-- **C5.**  The Curvature Fitter computes the per-row Euclidean magnitudes
of the reciprocal basis, projects each k-point to
`x[j] = direction · (diag(lengths) · kpoints[j])`, least-squares fits a
degree-2 polynomial over all window samples (the Cramer coefficients
minimise the residual sum of squares whenever the fit is nonsingular), and
returns `7.61996348863 / (2a)`. -/
theorem C5_curvature_fit (data : WindowData) (B : Mat3)
    (hdet : detA ((data.kpoints.map (projX data.dir (lengthsOf B))).zip data.vals) ≠ 0) :
    calc_em data B = 7.61996348863 /
      (2 * polyfit2a ((data.kpoints.map (projX data.dir (lengthsOf B))).zip data.vals)) ∧
    lengthsOf B = (Real.sqrt (B.1.1 ^ 2 + B.1.2.1 ^ 2 + B.1.2.2 ^ 2),
      Real.sqrt (B.2.1.1 ^ 2 + B.2.1.2.1 ^ 2 + B.2.1.2.2 ^ 2),
      Real.sqrt (B.2.2.1 ^ 2 + B.2.2.2.1 ^ 2 + B.2.2.2.2 ^ 2)) ∧
    (∀ k : Vec3R, projX data.dir (lengthsOf B) k
      = data.dir.1 * ((lengthsOf B).1 * k.1) + data.dir.2.1 * ((lengthsOf B).2.1 * k.2.1)
        + data.dir.2.2 * ((lengthsOf B).2.2 * k.2.2)) ∧
    (∀ a2 b2 c2 : ℝ,
      rss (polyfit2a ((data.kpoints.map (projX data.dir (lengthsOf B))).zip data.vals))
          (polyfit2b ((data.kpoints.map (projX data.dir (lengthsOf B))).zip data.vals))
          (polyfit2c ((data.kpoints.map (projX data.dir (lengthsOf B))).zip data.vals))
          ((data.kpoints.map (projX data.dir (lengthsOf B))).zip data.vals)
        ≤ rss a2 b2 c2 ((data.kpoints.map (projX data.dir (lengthsOf B))).zip data.vals)) := by
  refine ⟨?_, rfl, fun k => rfl, fun a2 b2 c2 => polyfit2_least_squares _ hdet a2 b2 c2⟩
  show 7.61996348863 /
      (polyfit2a ((data.kpoints.map (projX data.dir (lengthsOf B))).zip data.vals) * 2)
    = 7.61996348863 /
      (2 * polyfit2a ((data.kpoints.map (projX data.dir (lengthsOf B))).zip data.vals))
  rw [mul_comm]

/-- **C5 witness.**  On the concrete window `dataC5` with the identity basis
(whose row norms evaluate through `sqrt 1 = 1`) the fit is nonsingular, the
effective-mass formula holds, and the fitted coefficients beat the zero
polynomial in residual. -/
theorem C5_witness :
    calc_em dataC5 idB = 7.61996348863 /
      (2 * polyfit2a ((dataC5.kpoints.map (projX dataC5.dir (lengthsOf idB))).zip dataC5.vals)) ∧
    rss (polyfit2a ((dataC5.kpoints.map (projX dataC5.dir (lengthsOf idB))).zip dataC5.vals))
        (polyfit2b ((dataC5.kpoints.map (projX dataC5.dir (lengthsOf idB))).zip dataC5.vals))
        (polyfit2c ((dataC5.kpoints.map (projX dataC5.dir (lengthsOf idB))).zip dataC5.vals))
        ((dataC5.kpoints.map (projX dataC5.dir (lengthsOf idB))).zip dataC5.vals)
      ≤ rss 0 0 0 ((dataC5.kpoints.map (projX dataC5.dir (lengthsOf idB))).zip dataC5.vals) := by
  have hdet : detA ((dataC5.kpoints.map (projX dataC5.dir (lengthsOf idB))).zip dataC5.vals)
      ≠ 0 := by
    have hl : lengthsOf idB = ((1 : ℝ), (1 : ℝ), (1 : ℝ)) := by
      simp only [lengthsOf, idB, nrm, Prod.mk.injEq]
      norm_num [Real.sqrt_one]
    have hxs : dataC5.kpoints.map (projX dataC5.dir (lengthsOf idB)) = [0, 1, 2] := by
      rw [show dataC5.kpoints = [((0 : ℝ), (0 : ℝ), (0 : ℝ)), (1, 0, 0), (2, 0, 0)] from rfl, hl]
      simp only [List.map_cons, List.map_nil, projX]
      norm_num [show dataC5.dir = ((1 : ℝ), (0 : ℝ), (0 : ℝ)) from rfl]
    rw [hxs, show (([0, 1, 2] : List ℝ).zip dataC5.vals)
        = [((0 : ℝ), (0 : ℝ)), (1, 1), (2, 4)] from rfl]
    norm_num [detA, Spow, Tmom]
  have h := C5_curvature_fit dataC5 idB hdet
  exact ⟨h.1, h.2.2.2 0 0 0⟩
